import Mathlib

/-!
Verification development for the promshell argument-completion engine.

The definitions below are a shallow embedding of
`src/promshell/arguments.py` and `src/promshell/completion/argcompleter.py`,
together with the parts of the prompt_toolkit library the code calls into
(`Document.get_word_before_cursor` and `WordCompleter.get_completions`,
with their default parameters, which is how the engine invokes them).

Modelling conventions:
* Python strings are Lean `String`s; character-level work goes through
  `String.toList`.
* A prompt_toolkit `Document` is its `text` plus the character index
  `cursor_position`.
* A generator that yields some completions and then raises is modelled as a
  pair `List Compl × Option PyErr`: the yielded prefix plus the exception
  (if any) that terminated iteration.
* `ArgDescriptor` is a `dict` subclass in the source; Python `==` (used by
  `list.remove`) compares only the dict content, ignoring the `name` and
  `flags` instance attributes.  The embedded `Attrs` structure is that dict
  content, restricted to the keys the completion engine reads
  (`action`, `dest`, `metavar`, `choices`); `Option` encodes key presence.
-/

/-- Exceptions the embedded code can raise. -/
inductive PyErr where
  | assertionError
  | indexError
  | valueError
  | attributeError
deriving DecidableEq, Repr

/-- A prompt_toolkit `Completion`: display text, `start_position`
(replacement offset, non-positive), and style hint. -/
structure Compl where
  text : String
  start : Int
  style : String
deriving DecidableEq, Repr

/-- A prompt_toolkit `Document`: the input text and the cursor position
(a character index). -/
structure Doc where
  text : String
  cursor : Nat
deriving DecidableEq, Repr

/-- The yields of a (possibly raising) completion generator: the prefix of
completions produced before iteration ended, and the exception that ended
it, if any. -/
abbrev PyResult := List Compl × Option PyErr

/-- The dict content of an `ArgDescriptor` after `__init__`
(`src/promshell/arguments.py`): the keys the completer reads.  `metavar`
is always present after construction, the other keys may be absent. -/
structure Attrs where
  action : Option String
  dest : Option String
  metavar : String
  choices : Option (List String)
deriving DecidableEq, Repr

/-- `promshell.arguments.ArgDescriptor`: name, matching flags, and the
dict content (`Attrs`).  Python `==` between descriptors compares only
`attrs` (dict content). -/
structure ArgDescriptor where
  name : String
  flags : List String
  attrs : Attrs
deriving DecidableEq, Repr

/-- `ArgDescriptor.__init__(name, **kwargs)` with the recognized keyword
arguments passed as options (`none` = keyword absent).
Mirrors `src/promshell/arguments.py` lines 13-29:
* `flags` defaults to `[name]` when absent or falsy (empty list);
* when a (truthy) `flags` keyword is given and `dest` is not, `dest`
  is set to `name`;
* when `metavar` is absent it defaults to `'<%s>' % dest`, where a missing
  or falsy `dest` entry falls back to `name`. -/
def mkArgDescriptor (name : String) (flagsKw : Option (List String))
    (actionKw destKw metavarKw : Option String)
    (choicesKw : Option (List String)) : ArgDescriptor :=
  let flagsTruthy : Bool := match flagsKw with
    | some (_ :: _) => true
    | _ => false
  let flags : List String := match flagsKw with
    | some (f :: fs) => f :: fs
    | _ => [name]
  let destEntry : Option String :=
    if flagsTruthy then some (destKw.getD name) else destKw
  let destForMetavar : String := match destEntry with
    | some d => if d = "" then name else d
    | none => name
  let metavar : String := metavarKw.getD ("<" ++ destForMetavar ++ ">")
  { name := name, flags := flags,
    attrs := { action := actionKw, dest := destEntry, metavar := metavar,
               choices := choicesKw } }

/-- `ArgDescriptor.choices` property: `self.get('choices', [self.metavar])`.
Note `dict.get` only falls back when the key is absent. -/
def ArgDescriptor.choices (d : ArgDescriptor) : List String :=
  d.attrs.choices.getD [d.attrs.metavar]

/-- `ArgDescriptor.metavar` property. -/
def ArgDescriptor.metavar (d : ArgDescriptor) : String :=
  d.attrs.metavar

/-- `ArgDescriptor.is_positional`: first flag does not start with `'-'`.
(The constructor guarantees `flags` is non-empty; `headD` is only a
totality device.) -/
def ArgDescriptor.is_positional (d : ArgDescriptor) : Bool :=
  match (d.flags.headD "").toList with
  | c :: _ => !(c = '-')
  | [] => true

/-- `ArgDescriptor.is_flag`: action is `store_true` or `store_false`. -/
def ArgDescriptor.is_flag (d : ArgDescriptor) : Bool :=
  d.attrs.action == some "store_true" || d.attrs.action == some "store_false"

/-! ### Character and word utilities (prompt_toolkit `Document`, Python str) -/

/-- Python's `str.isspace` / regex `\s` on the characters occurring here. -/
def isSpaceChar (c : Char) : Bool :=
  c = ' ' || c = '\t' || c = '\n' || c = '\r'

/-- A regex "word" character: `[a-zA-Z0-9_]`. -/
def isWordChar (c : Char) : Bool :=
  c.isAlpha || c.isDigit || c = '_'

/-- Character class used by prompt_toolkit's `_FIND_WORD_RE`
(`[a-zA-Z0-9_]+|[^a-zA-Z0-9_\s]+`): word chars, whitespace, or special. -/
def charKind (c : Char) : Nat :=
  if isWordChar c then 0 else if isSpaceChar c then 2 else 1

/-- `Document.get_word_before_cursor(WORD=False)` on the text before the
cursor: empty when the text is empty or ends in whitespace, otherwise the
maximal suffix of characters of the same class as the final character. -/
def wordBeforeCursorL (tbc : List Char) : List Char :=
  match tbc.getLast? with
  | none => []
  | some c =>
    if isSpaceChar c then []
    else ((tbc.reverse.takeWhile (fun x => charKind x = charKind c)).reverse)

/-- The word before the cursor of a `Document`, as a string. -/
def wordBeforeCursor (doc : Doc) : String :=
  (wordBeforeCursorL (doc.text.toList.take doc.cursor)).asString

/-- `WordCompleter(words).get_completions(document, event)` with default
parameters: keep the words having the word-before-cursor as a prefix, each
becoming a completion replacing that fragment. -/
def wordCompleterRun (words : List String) (doc : Doc) : List Compl :=
  let wl := wordBeforeCursorL (doc.text.toList.take doc.cursor)
  (words.filter (fun w => wl.isPrefixOf w.toList)).map
    (fun w => { text := w, start := -(wl.length : Int), style := "" })

/-- Python `str.split()` (whitespace split, empties dropped), accumulator
form. -/
def wordsAux : List Char → List Char → List (List Char)
  | [], acc => if acc = [] then [] else [acc.reverse]
  | c :: cs, acc =>
    if isSpaceChar c then
      if acc = [] then wordsAux cs [] else acc.reverse :: wordsAux cs []
    else wordsAux cs (c :: acc)

/-- `document.text.lstrip().split()` as performed by
`ArgumentCompleter.get_completions`. -/
def pyWords (s : String) : List String :=
  (wordsAux s.toList []).map List.asString

/-- Python `text.endswith(' ')` (a literal space). -/
def endsWithSpace (s : String) : Bool :=
  match s.toList.getLast? with
  | some c => c = ' '
  | none => false

/-- Python `word.split(',')`: split on every comma, keeping empty pieces
(`''.split(',') == ['']`). -/
def splitCommaL : List Char → List (List Char)
  | [] => [[]]
  | c :: rest =>
    if c = ',' then [] :: splitCommaL rest
    else
      match splitCommaL rest with
      | [] => [[c]]
      | w :: ws => (c :: w) :: ws

/-- `word.split(',')` on strings. -/
def pySplitComma (s : String) : List String :=
  (splitCommaL s.toList).map List.asString

/-- Split a character list at the first occurrence of `sep` (assumed
non-empty by callers): the parts before and after it. -/
def splitFirst (sep : List Char) : List Char → Option (List Char × List Char)
  | [] => if sep = [] then some ([], []) else none
  | c :: rest =>
    if sep.isPrefixOf (c :: rest) then some ([], (c :: rest).drop sep.length)
    else (splitFirst sep rest).map (fun pr => (c :: pr.1, pr.2))

/-- Python `s.partition(sep)`: `(head, sep, tail)` around the first
occurrence, `(s, '', '')` if absent, `ValueError` on an empty separator. -/
def pyPartition (s sep : String) : Except PyErr (String × String × String) :=
  if sep = "" then .error .valueError
  else
    match splitFirst sep.toList s.toList with
    | some (pre, post) => .ok (pre.asString, sep, post.asString)
    | none => .ok (s, "", "")

/-! ### KeyValueCompleter (`argcompleter.py` lines 73-163) -/

/-- `promshell.completion.argcompleter.CompletionContext` (the `event`
field is never read by the embedded code paths and is omitted). -/
structure CompletionContext where
  document : Doc
  arg_descriptor : ArgDescriptor
  word : String

/-- `promshell.completion.argcompleter.KeyValueCompleter` configuration. -/
structure KeyValueCompleter where
  key_names : List String
  operators : List String
deriving DecidableEq, Repr

/-- The `expression` variable after the operator loop of
`KeyValueCompleter.get_completions` (lines 129-135): the first partition
whose middle is non-empty, else the last attempted partition (which is
`(s, '', '')`), else `none` when the operator list is empty (the variable
keeps its initial `[]` value).  Errors propagate from `partition`. -/
def findExpr (s : String) :
    List String → Except PyErr (Option (String × String × String))
  | [] => .ok none
  | op :: rest =>
    match pyPartition s op with
    | .error e => .error e
    | .ok e =>
      if e.2.1 ≠ "" then .ok (some e)
      else
        match rest with
        | [] => .ok (some e)
        | op2 :: rest2 => findExpr s (op2 :: rest2)

/-- The key the loop body derives for one segment (`key`/`value` are
updated only when an operator was found; otherwise `key` is the whole
segment). -/
def segKeyOf (s : String) (eo : Option (String × String × String)) : String :=
  match eo with
  | some (p, m, _) => if m ≠ "" then p else s
  | none => s

/-- The key a segment yields together with an operator: `some k` exactly
when the operator loop finds an operator in the segment and the part
before it is `k` (the claim's "key paired with one of the operators"). -/
def opKeyAt (ops : List String) (s : String) : Option String :=
  match findExpr s ops with
  | .ok (some (p, m, _)) => if m ≠ "" then some p else none
  | _ => none

/-- State threaded through the `while key_value_items` loop: remaining
available keys, completions yielded so far, the `provide_keys` flag, and
the exception that aborted iteration, if any. -/
structure KVState where
  used : List String
  ys : List Compl
  provide : Bool
  err : Option PyErr
deriving Repr

/-- The `while` loop of `KeyValueCompleter.get_completions`
(lines 124-154), processing the comma-separated segments front to back.
A non-last segment only consumes its key from the available set
(`if key in used_keys: used_keys.remove(key)`, i.e. `List.erase`); the
last segment determines what is yielded.  Indexing `expression[0]` when
the operator list is empty raises `IndexError`. -/
def kvProcess (ops : List String) : List String → List String → KVState
  | [], used => ⟨used, [], true, none⟩
  | [s], used =>
    match findExpr s ops with
    | .error e => ⟨used, [], true, some e⟩
    | .ok none => ⟨used, [], true, some .indexError⟩
    | .ok (some (p, m, q)) =>
      let value := if m ≠ "" then q else ""
      if p ≠ "" ∧ m = "" then
        ⟨used, ops.map (fun op => { text := op, start := 0, style := "" }),
          false, none⟩
      else if m ≠ "" then
        if value ≠ "" then ⟨used, [{ text := ",", start := 0, style := "" }], false, none⟩
        else ⟨used, [{ text := "<value>[,]", start := 0, style := "" }], false, none⟩
      else if value ≠ "" then ⟨used, [{ text := ",", start := 0, style := "" }], true, none⟩
      else ⟨used, [], true, none⟩
  | s :: s2 :: rest, used =>
    match findExpr s ops with
    | .error e => ⟨used, [], true, some e⟩
    | .ok eo => kvProcess ops (s2 :: rest) (used.erase (segKeyOf s eo))

/-- Final key suggestions (lines 156-163): a `WordCompleter` over the
remaining keys, each completion restyled `fg:ansiblue`. -/
def keySuggest (used : List String) (doc : Doc) : List Compl :=
  (wordCompleterRun used doc).map (fun c => { c with style := "fg:ansiblue" })

/-- `KeyValueCompleter.get_completions(context)` (lines 100-163): the
empty-key-set placeholder, then the loop yields, then (unless suppressed)
the remaining-key suggestions.  On an exception the completions yielded
before it are kept and the suggestion stage never runs. -/
def KeyValueCompleter.get_completions (kv : KeyValueCompleter)
    (context : CompletionContext) : PyResult :=
  let pre : List Compl :=
    if kv.key_names = [] then [{ text := "", start := 0, style := "" }] else []
  let r := kvProcess kv.operators (pySplitComma context.word) kv.key_names
  match r.err with
  | some e => (pre ++ r.ys, some e)
  | none =>
    (pre ++ r.ys ++ (if r.provide then keySuggest r.used context.document else []),
      none)

/-! ### ArgumentCompleter (`argcompleter.py` lines 166-391) -/

/-- `promshell.completion.argcompleter.ArgumentCompleter`: the descriptor
set template and the optional value completer.  The repository's own
`ValueCompleter` implementation is `KeyValueCompleter`, which is the
variant modelled here (`none` = no completer configured). -/
structure ArgumentCompleter where
  arg_desc_list : List ArgDescriptor
  value_completer : Option KeyValueCompleter

/-- `ArgumentCompleter.State` (lines 210-228) minus the pending word list,
which the recursion consumes and is threaded separately.  `__init__`
stores a shallow copy of the template descriptor list (`arg_desc_list.copy()`),
so mutations below touch only this working copy. -/
structure ArgumentCompleter.State where
  document : Doc
  trailing_space : Bool
  arg_desc_list : List ArgDescriptor
  arg_descriptor : Option ArgDescriptor
  completer : Option KeyValueCompleter

/-- Python `list.remove(x)` on descriptor lists: removes the first element
whose dict content (`attrs`) equals `x`'s — `ArgDescriptor` is a `dict`
subclass, so `==` ignores the `name`/`flags` instance attributes. -/
def pyRemoveDesc : List ArgDescriptor → ArgDescriptor → List ArgDescriptor
  | [], _ => []
  | d :: rest, x => if d.attrs = x.attrs then rest else d :: pyRemoveDesc rest x

/-- `State.remove_positional` (lines 230-238) on the descriptor list:
find the first positional and `list.remove` it (no-op when none). -/
def removeFirstPositional (l : List ArgDescriptor) : List ArgDescriptor :=
  match l.find? (fun d => d.is_positional) with
  | none => l
  | some p => pyRemoveDesc l p

/-- `State.remove_positional`. -/
def ArgumentCompleter.State.remove_positional (st : ArgumentCompleter.State) :
    ArgumentCompleter.State :=
  { st with arg_desc_list := removeFirstPositional st.arg_desc_list }

/-- `State.find_option_argument` (lines 308-320): first non-positional
descriptor of the working copy having `name` among its flags. -/
def ArgumentCompleter.State.find_option_argument
    (st : ArgumentCompleter.State) (name : String) : Option ArgDescriptor :=
  st.arg_desc_list.find? (fun d => !d.is_positional && d.flags.contains name)

/-- `State.completion_for_positional` (lines 264-290): asserts the
descriptor is positional (an `AssertionError` otherwise — the assert
precedes everything else), then delegates to the configured value
completer, or a `WordCompleter` over the descriptor's choices. -/
def ArgumentCompleter.State.completion_for_positional
    (st : ArgumentCompleter.State) (d : ArgDescriptor) (word : String) :
    PyResult :=
  if d.is_positional then
    match st.completer with
    | some kv => kv.get_completions ⟨st.document, d, word⟩
    | none => (wordCompleterRun d.choices st.document, none)
  else ([], some .assertionError)

/-- One iteration of the descriptor loop of
`State.completion_for_argument_set` (lines 252-258): positional
descriptors yield their value completions in place, non-positional ones
contribute their primary flag to the pending word list.  Returns
(yields, collected option flags, aborting exception). -/
def argSetLoop (st : ArgumentCompleter.State) :
    List ArgDescriptor → List Compl × List String × Option PyErr
  | [] => ([], [], none)
  | d :: rest =>
    if d.is_positional then
      match st.completion_for_positional d "" with
      | (ys, some e) => (ys, [], some e)
      | (ys, none) =>
        (ys ++ (argSetLoop st rest).1, (argSetLoop st rest).2.1,
          (argSetLoop st rest).2.2)
    else
      ((argSetLoop st rest).1, d.flags.headD "" :: (argSetLoop st rest).2.1,
        (argSetLoop st rest).2.2)

/-- `State.completion_for_argument_set` (lines 240-262): the loop above,
then a `WordCompleter` over the collected option flags (which never runs
if the loop raised). -/
def ArgumentCompleter.State.completion_for_argument_set
    (st : ArgumentCompleter.State) : PyResult :=
  match argSetLoop st st.arg_desc_list with
  | (ys, _, some e) => (ys, some e)
  | (ys, fl, none) => (ys ++ wordCompleterRun fl st.document, none)

/-- `State.completion_for_argument` (lines 292-306): reads
`self.arg_descriptor`; a switch gets the full argument set, anything else
is passed to `completion_for_positional` (whose assert then fires for the
non-positional active descriptor) — note the `word` parameter of
`completion_for_argument` is never forwarded, so the fragment defaults to
`''`.  An unset active descriptor would be an `AttributeError`
(unreachable from `resolve_completion`). -/
def ArgumentCompleter.State.completion_for_argument
    (st : ArgumentCompleter.State) : PyResult :=
  match st.arg_descriptor with
  | none => ([], some .attributeError)
  | some d =>
    if d.is_flag then st.completion_for_argument_set
    else st.completion_for_positional d ""

/-- The state update for a fully-specified (non-final) word
(`resolve_completion` lines 355-368): a matching option is removed from
the working copy and becomes the active descriptor; otherwise, when no
descriptor is active the word is taken as a positional's value (removing
the first positional), and the active descriptor is cleared. -/
def consumeWord (st : ArgumentCompleter.State) (w : String) :
    ArgumentCompleter.State :=
  match st.find_option_argument w with
  | some d =>
    { st with arg_desc_list := pyRemoveDesc st.arg_desc_list d,
              arg_descriptor := some d }
  | none =>
    if st.arg_descriptor.isNone then
      { st.remove_positional with arg_descriptor := none }
    else
      { st with arg_descriptor := none }

/-- The base case of `resolve_completion` for the last word
(lines 341-353). -/
def lastWordCompletion (st : ArgumentCompleter.State) (w : String) :
    PyResult :=
  let matching := st.find_option_argument w
  if st.trailing_space then
    match matching with
    | some d => { st with arg_descriptor := some d }.completion_for_argument
    | none =>
      if st.arg_descriptor.isNone then
        st.remove_positional.completion_for_argument_set
      else st.completion_for_argument_set
  else
    match st.arg_descriptor with
    | some _ => st.completion_for_argument
    | none => st.completion_for_argument_set

/-- `ArgumentCompleter.resolve_completion` (lines 325-370), with the
pending word list passed explicitly: no pending words yield the full
argument set; the last word is the base case; every earlier word is
consumed by `consumeWord` before recursing. -/
def ArgumentCompleter.resolve_completion (st : ArgumentCompleter.State) :
    List String → PyResult
  | [] => st.completion_for_argument_set
  | [w] => lastWordCompletion st w
  | w :: w2 :: rest =>
    ArgumentCompleter.resolve_completion (consumeWord st w) (w2 :: rest)

/-- Fuel-indexed variant of `resolve_completion`: each recursive call of
the Python function consumes one unit; `none` means the fuel ran out
before the base case was reached. -/
def resolveFuel : Nat → ArgumentCompleter.State → List String →
    Option PyResult
  | 0, _, _ => none
  | _ + 1, st, [] => some st.completion_for_argument_set
  | _ + 1, st, [w] => some (lastWordCompletion st w)
  | fuel + 1, st, w :: w2 :: rest =>
    resolveFuel fuel (consumeWord st w) (w2 :: rest)

/-- The fresh per-request state built by `ArgumentCompleter.get_completions`
(lines 380-385): working copy of the template, no active descriptor. -/
def initState (c : ArgumentCompleter) (doc : Doc) :
    ArgumentCompleter.State :=
  { document := doc, trailing_space := endsWithSpace doc.text,
    arg_desc_list := c.arg_desc_list, arg_descriptor := none,
    completer := c.value_completer }

/-- `ArgumentCompleter.get_completions` (lines 372-391): split the text
into words, resolve, and append the empty sentinel completion — unless
iteration was aborted by an exception, in which case the sentinel is
never yielded. -/
def ArgumentCompleter.get_completions (c : ArgumentCompleter) (doc : Doc) :
    PyResult :=
  match ArgumentCompleter.resolve_completion (initState c doc)
      (pyWords doc.text) with
  | (ys, none) => (ys ++ [{ text := "", start := 0, style := "" }], none)
  | (ys, some e) => (ys, some e)

/-- The method also as a state transformer on the completer object: the
body only reads `self` (the `State` constructor takes a copy of the
descriptor list, line 226, and nothing assigns to `self`), so the
post-call object is the pre-call object. -/
def ArgumentCompleter.run (c : ArgumentCompleter) (doc : Doc) :
    PyResult × ArgumentCompleter :=
  (c.get_completions doc, c)

/-! ### Concrete descriptors and completers used by the E2E scenarios -/

/-- Positional `pos1` with no candidate values (scenario A-D). -/
def pos1Desc : ArgDescriptor :=
  mkArgDescriptor "pos1" none none none none none

/-- SingleValue option `-o1` with candidates `val1`, `val2`. -/
def o1Desc : ArgDescriptor :=
  mkArgDescriptor "-o1" none none none none (some ["val1", "val2"])

/-- SingleValue option `-o2` with candidate `<o2_value>`. -/
def o2Desc : ArgDescriptor :=
  mkArgDescriptor "-o2" none none none none (some ["<o2_value>"])

/-- A switch (`store_true`) option `-v`. -/
def switchDesc : ArgDescriptor :=
  mkArgDescriptor "-v" none (some "store_true") none none none

/-- The scenario A-D completer (no value completer configured). -/
def scenCompleter : ArgumentCompleter :=
  { arg_desc_list := [pos1Desc, o1Desc, o2Desc], value_completer := none }

/-- `∀ c ∈ l, c.text ≠ f`: the token `f` appears nowhere in the candidate
list. -/
def avoidsToken (f : String) (l : List Compl) : Prop :=
  ∀ c ∈ l, c.text ≠ f

/-- The candidate list ends in an empty-string candidate and the candidate
before it (if any) is non-empty. -/
def endsWithOneEmpty (l : List Compl) : Bool :=
  match l.reverse with
  | [] => false
  | c :: rest =>
    c.text == "" &&
      (match rest with
       | [] => true
       | c2 :: _ => c2.text != "")

/-- No key suggestion (a completion styled `fg:ansiblue`) carries the
text `k`. -/
def blueAvoids (k : String) (l : List Compl) : Prop :=
  ∀ c ∈ l, c.style = "fg:ansiblue" → c.text ≠ k

/-- C7 — `candidates()` as the claim states it for an explicitly empty
choices list: the property it asserts there is `['<pos1>']`, which is what
we refute. -/
theorem c7_counterexample :
    (mkArgDescriptor "pos1" none none none none (some [])).choices = []
      ∧ (mkArgDescriptor "pos1" none none none none (some [])).choices
          ≠ ["<pos1>"] := by
  constructor
  · rfl
  · decide

/-- C7 (amended) — `choices` returns the configured `choices` entry whenever
the keyword was supplied (even when it is the empty list), and falls back to
the one-element placeholder `[metavar]` only when the keyword is absent; in
particular a descriptor built with only a name yields `['<name>']`. -/
theorem c7_amended (name : String) (flagsKw : Option (List String))
    (actionKw destKw metavarKw : Option String)
    (choicesKw : Option (List String)) :
    (mkArgDescriptor name flagsKw actionKw destKw metavarKw choicesKw).choices
        = choicesKw.getD
            [(mkArgDescriptor name flagsKw actionKw destKw metavarKw
                choicesKw).attrs.metavar]
      ∧ (mkArgDescriptor name none none none none none).choices
          = ["<" ++ name ++ ">"] := by
  constructor
  · rfl
  · rfl

/-! ### Helper lemmas -/

/-- Python `list.remove` yields a sublist. -/
theorem pyRemoveDesc_sublist (l : List ArgDescriptor) (x : ArgDescriptor) :
    (pyRemoveDesc l x).Sublist l := by
  induction l with
  | nil => simp [pyRemoveDesc]
  | cons d rest ih =>
    by_cases h : d.attrs = x.attrs
    · simp only [pyRemoveDesc, h, if_pos]
      exact (List.Sublist.refl rest).cons d
    · simp only [pyRemoveDesc, h, if_neg]
      exact ih.cons₂ d

/-- `remove_positional` yields a sublist of the descriptor list. -/
theorem removeFirstPositional_sublist (l : List ArgDescriptor) :
    (removeFirstPositional l).Sublist l := by
  unfold removeFirstPositional
  cases l.find? (fun d => d.is_positional) with
  | none => exact List.Sublist.refl l
  | some p => exact pyRemoveDesc_sublist l p

/-- An element whose dict content differs from the removed one survives
`list.remove`. -/
theorem mem_pyRemoveDesc_of_attrs_ne {l : List ArgDescriptor}
    {x d : ArgDescriptor} (hd : d ∈ l) (hne : d.attrs ≠ x.attrs) :
    d ∈ pyRemoveDesc l x := by
  induction l with
  | nil => simp at hd
  | cons y rest ih =>
    by_cases h : y.attrs = x.attrs
    · rcases List.mem_cons.mp hd with rfl | hmem
      · exact absurd h hne
      · simpa [pyRemoveDesc, h] using hmem
    · rcases List.mem_cons.mp hd with rfl | hmem
      · simp [pyRemoveDesc, h]
      · simp only [pyRemoveDesc, h, if_neg]
        exact List.mem_cons_of_mem y (ih hmem)

/-- The working descriptor list of `consumeWord` is a sublist of the
incoming one. -/
theorem consumeWord_descs_sublist (st : ArgumentCompleter.State)
    (w : String) :
    (consumeWord st w).arg_desc_list.Sublist st.arg_desc_list := by
  unfold consumeWord
  cases st.find_option_argument w with
  | some d => exact pyRemoveDesc_sublist _ d
  | none =>
    by_cases h : st.arg_descriptor.isNone <;>
      simp [h, ArgumentCompleter.State.remove_positional,
        removeFirstPositional_sublist, List.Sublist.refl]

/-- `consumeWord` leaves the document, trailing-space flag and completer
untouched. -/
theorem consumeWord_frame (st : ArgumentCompleter.State) (w : String) :
    (consumeWord st w).document = st.document ∧
      (consumeWord st w).trailing_space = st.trailing_space ∧
      (consumeWord st w).completer = st.completer := by
  unfold consumeWord
  cases st.find_option_argument w with
  | some d => exact ⟨rfl, rfl, rfl⟩
  | none =>
    by_cases h : st.arg_descriptor.isNone <;>
      simp [h, ArgumentCompleter.State.remove_positional]

/-! ### Claim theorems (C1, C2, C4, C5, C8, C9, part of C6) -/

/-- C1 — For the E2E-scenario-B descriptor set and the input line
`"-o1 "`, the engine does not return `['val1', 'val2', '']` as the spec
claims: `completion_for_argument` hands the non-positional `-o1`
descriptor to `completion_for_positional`, whose
`assert arg_descriptor.is_positional()` fails, so `get_completions`
yields nothing and raises `AssertionError`. -/
theorem c1_option_value_assertion :
    ArgumentCompleter.get_completions scenCompleter ⟨"-o1 ", 0⟩
      = ([], some PyErr.assertionError) := by
  rfl

/-- C2 (counterexample) — processing the non-final word `"xyz"`, which
matches no descriptor, while no active descriptor is set, does NOT leave
the remaining-descriptor set unchanged: it removes the positional
`pos1`. -/
theorem c2_counterexample :
    (initState scenCompleter ⟨"xyz abc", 0⟩).find_option_argument "xyz"
        = none
      ∧ (initState scenCompleter ⟨"xyz abc", 0⟩).arg_descriptor = none
      ∧ (consumeWord (initState scenCompleter ⟨"xyz abc", 0⟩)
            "xyz").arg_desc_list
          ≠ (initState scenCompleter ⟨"xyz abc", 0⟩).arg_desc_list := by
  refine ⟨by decide, rfl, by decide⟩

/-- C2 (amended) — an unmatched non-final token with no active descriptor
never raises; it consumes the first positional from the working copy (the
first element with the same dict content), so: the result is a sublist of
the working copy, the active descriptor stays unset, the set is unchanged
when no positional remains, and (descriptors with pairwise-distinct dict
content) every non-positional descriptor survives. -/
theorem c2_amended (st : ArgumentCompleter.State) (w : String)
    (hm : st.find_option_argument w = none)
    (ha : st.arg_descriptor = none) :
    (consumeWord st w).arg_desc_list.Sublist st.arg_desc_list
      ∧ (consumeWord st w).arg_descriptor = none
      ∧ ((∀ d ∈ st.arg_desc_list, d.is_positional = false) →
          (consumeWord st w).arg_desc_list = st.arg_desc_list)
      ∧ ((st.arg_desc_list.map (fun d => d.attrs)).Nodup →
          ∀ d ∈ st.arg_desc_list, d.is_positional = false →
            d ∈ (consumeWord st w).arg_desc_list) := by
  have hcw : consumeWord st w
      = { st.remove_positional with arg_descriptor := none } := by
    unfold consumeWord
    rw [hm]
    simp [ha]
  refine ⟨?_, ?_, ?_, ?_⟩
  · rw [hcw]
    exact removeFirstPositional_sublist st.arg_desc_list
  · rw [hcw]
  · intro hnp
    rw [hcw]
    show removeFirstPositional st.arg_desc_list = st.arg_desc_list
    unfold removeFirstPositional
    have : st.arg_desc_list.find? (fun d => d.is_positional) = none := by
      rw [List.find?_eq_none]
      intro d hd
      simp [hnp d hd]
    rw [this]
  · intro hnd d hd hdnp
    rw [hcw]
    show d ∈ removeFirstPositional st.arg_desc_list
    unfold removeFirstPositional
    cases hfind : st.arg_desc_list.find? (fun d => d.is_positional) with
    | none => exact hd
    | some p =>
      have hpmem : p ∈ st.arg_desc_list := List.mem_of_find?_eq_some hfind
      have hppos : p.is_positional = true := List.find?_some hfind
      have hdp : d ≠ p := by
        intro hdp
        rw [hdp, hppos] at hdnp
        simp at hdnp
      have hattrs : d.attrs ≠ p.attrs := by
        intro heq
        exact hdp (List.inj_on_of_nodup_map hnd hd hpmem heq)
      exact mem_pyRemoveDesc_of_attrs_ne hd hattrs

/-- C4 (counterexample) — for a positional whose configured choices are
`['']` and the empty input line, `get_completions` produces `['', '']`:
the computed candidates already end in an empty string, so the full
result does not end with exactly one empty-string candidate. -/
theorem c4_counterexample :
    (ArgumentCompleter.get_completions
        ⟨[mkArgDescriptor "p" none none none none (some [""])], none⟩
        ⟨"", 0⟩).1
      = [{ text := "", start := 0, style := "" },
         { text := "", start := 0, style := "" }]
    ∧ endsWithOneEmpty (ArgumentCompleter.get_completions
        ⟨[mkArgDescriptor "p" none none none none (some [""])], none⟩
        ⟨"", 0⟩).1 = false := by
  exact ⟨rfl, by decide⟩

/-- C4 (amended) — whenever a completion request finishes without an
exception, its result is exactly the computed candidate sequence with one
empty-string sentinel appended after it (so it always ends in an
empty-string candidate, though the computed part may itself end in one). -/
theorem c4_amended (c : ArgumentCompleter) (doc : Doc)
    (h : (c.get_completions doc).2 = none) :
    (c.get_completions doc).1
      = (ArgumentCompleter.resolve_completion (initState c doc)
          (pyWords doc.text)).1
        ++ [{ text := "", start := 0, style := "" }] := by
  unfold ArgumentCompleter.get_completions at h ⊢
  cases hr : ArgumentCompleter.resolve_completion (initState c doc)
      (pyWords doc.text) with
  | mk ys e =>
    cases e with
    | none => simp [hr]
    | some e2 => rw [hr] at h; simp at h

/-- C4 (amended) witness: instantiated on scenario A. -/
theorem c4_amended_witness :
    (ArgumentCompleter.get_completions scenCompleter ⟨"-", 0⟩).2 = none
      ∧ (ArgumentCompleter.get_completions scenCompleter ⟨"-", 0⟩).1
          = (ArgumentCompleter.resolve_completion
              (initState scenCompleter ⟨"-", 0⟩) (pyWords "-")).1
            ++ [{ text := "", start := 0, style := "" }] :=
  ⟨rfl, c4_amended scenCompleter ⟨"-", 0⟩ rfl⟩

/-- C5 — E2E scenario A: for the scenario descriptor set and the document
of the repository's own test (`Document("-", cursor_position=0)`, whose
word before the cursor is empty, so the `WordCompleter` prefix filter is
vacuous), `get_completions` returns exactly
`['<pos1>', '-o1', '-o2', '']` in descriptor order. -/
theorem c5_full_argument_set_on_dash :
    ArgumentCompleter.get_completions scenCompleter ⟨"-", 0⟩
      = ([{ text := "<pos1>", start := 0, style := "" },
          { text := "-o1", start := 0, style := "" },
          { text := "-o2", start := 0, style := "" },
          { text := "", start := 0, style := "" }], none) := by
  rfl

/-- C6 (counterexample) — a Switch flag typed as a fully-terminated
(space-followed) word reappears immediately: for `[-v (store_true)]` and
line `"-v "`, the completion produced right after the flag still offers
`-v` (the matched switch is never removed from the working copy in the
last-word branch). -/
theorem c6_counterexample :
    endsWithSpace "-v " = true
      ∧ pyWords "-v " = ["-v"]
      ∧ ¬ avoidsToken "-v"
          (ArgumentCompleter.get_completions ⟨[switchDesc], none⟩
            ⟨"-v ", 0⟩).1 := by
  refine ⟨rfl, by decide, ?_⟩
  intro h
  exact h { text := "-v", start := 0, style := "" } (by decide) rfl

/-- C8 (counterexample) — two documents with equal text but different
cursor positions produce different candidate sequences (the word before
the cursor feeds the `WordCompleter` prefix filter), so equality of the
document text alone does not determine the output. -/
theorem c8_counterexample :
    (Doc.mk "-" 0).text = (Doc.mk "-" 1).text
      ∧ ArgumentCompleter.get_completions scenCompleter ⟨"-", 0⟩
          ≠ ArgumentCompleter.get_completions scenCompleter ⟨"-", 1⟩ := by
  exact ⟨rfl, by decide⟩

/-- C8 (amended) — completion is a pure function of the completer and the
full document (text and cursor position): two requests on equal documents
yield identical sequences, and a request never mutates the stored
descriptor-set template (the per-request `State` works on a copy). -/
theorem c8_amended (c : ArgumentCompleter) (d1 d2 : Doc)
    (ht : d1.text = d2.text) (hc : d1.cursor = d2.cursor) :
    c.get_completions d1 = c.get_completions d2 ∧ (c.run d1).2 = c := by
  have hdd : d1 = d2 := by
    cases d1; cases d2; simp_all
  subst hdd
  exact ⟨rfl, rfl⟩

/-- C8 (amended) witness. -/
theorem c8_amended_witness :
    ArgumentCompleter.get_completions scenCompleter ⟨"-", 0⟩
        = ArgumentCompleter.get_completions scenCompleter ⟨"-", 0⟩
      ∧ (ArgumentCompleter.run scenCompleter ⟨"-", 0⟩).2 = scenCompleter :=
  c8_amended scenCompleter ⟨"-", 0⟩ ⟨"-", 0⟩ rfl rfl

/-- C9 — `resolve_completion` reaches its base case within one call per
pending word: with fuel `(number of words) + 1` the fuel-indexed variant
never runs out and computes exactly the recursion's result. -/
theorem c9_termination (st : ArgumentCompleter.State) (ws : List String) :
    resolveFuel (ws.length + 1) st ws
      = some (ArgumentCompleter.resolve_completion st ws) := by
  induction ws generalizing st with
  | nil => rfl
  | cons w rest ih =>
    cases rest with
    | nil => rfl
    | cons w2 rest2 =>
      show resolveFuel ((w2 :: rest2).length + 1) (consumeWord st w)
          (w2 :: rest2) = _
      rw [ih (consumeWord st w)]
      rfl

/-! ### KeyValueCompleter lemmas and claims C3, C10 -/

/-- The available-key set only shrinks across the segment loop. -/
theorem kvProcess_used_sublist (ops : List String) :
    ∀ (segs used : List String),
      (kvProcess ops segs used).used.Sublist used := by
  intro segs
  induction segs with
  | nil => intro used; exact List.Sublist.refl used
  | cons s rest ih =>
    intro used
    cases rest with
    | nil =>
      cases hfe : findExpr s ops with
      | error e => simp [kvProcess, hfe]
      | ok eo =>
        cases eo with
        | none => simp [kvProcess, hfe]
        | some e =>
          obtain ⟨p, m, q⟩ := e
          simp only [kvProcess, hfe]
          split_ifs <;> exact List.Sublist.refl used
    | cons s2 rest2 =>
      cases hfe : findExpr s ops with
      | error e => simp [kvProcess, hfe]
      | ok eo =>
        simp only [kvProcess, hfe]
        exact (ih (used.erase (segKeyOf s eo))).trans
          (List.erase_sublist _ used)

/-- Completions yielded inside the segment loop all carry the default
(empty) style: operator suggestions, the comma, and the value
placeholder. -/
theorem kvProcess_ys_style (ops : List String) :
    ∀ (segs used : List String) (c : Compl),
      c ∈ (kvProcess ops segs used).ys → c.style = "" := by
  intro segs
  induction segs with
  | nil => intro used c hc; simp [kvProcess] at hc
  | cons s rest ih =>
    intro used c hc
    cases rest with
    | nil =>
      cases hfe : findExpr s ops with
      | error e => simp [kvProcess, hfe] at hc
      | ok eo =>
        cases eo with
        | none => simp [kvProcess, hfe] at hc
        | some e =>
          obtain ⟨p, m, q⟩ := e
          simp only [kvProcess, hfe] at hc
          split_ifs at hc
          · obtain ⟨op, _, rfl⟩ := List.mem_map.mp hc
            rfl
          · simp at hc; rw [hc]
          · simp at hc; rw [hc]
          · simp at hc; rw [hc]
          · simp at hc
    | cons s2 rest2 =>
      cases hfe : findExpr s ops with
      | error e => simp [kvProcess, hfe] at hc
      | ok eo =>
        simp only [kvProcess, hfe] at hc
        exact ih (used.erase (segKeyOf s eo)) c hc

/-- If some non-last segment carries key `k` paired with an operator and
the loop finishes without an exception, then `k` is absent from the final
available-key set (provided the configured keys are distinct). -/
theorem kvProcess_key_consumed (ops : List String) :
    ∀ (segs used : List String) (i : Nat) (k : String),
      used.Nodup → i + 1 < segs.length →
      opKeyAt ops (segs.getD i "") = some k →
      (kvProcess ops segs used).err = none →
      k ∉ (kvProcess ops segs used).used := by
  intro segs
  induction segs with
  | nil =>
    intro used i k _ hi _ _
    simp at hi
  | cons s rest ih =>
    intro used i k hnd hi hseg herr
    cases rest with
    | nil => simp at hi
    | cons s2 rest2 =>
      cases hfe : findExpr s ops with
      | error e =>
        have habort : kvProcess ops (s :: s2 :: rest2) used
            = ⟨used, [], true, some e⟩ := by
          simp [kvProcess, hfe]
        rw [habort] at herr
        simp at herr
      | ok eo =>
        have hstep : kvProcess ops (s :: s2 :: rest2) used
            = kvProcess ops (s2 :: rest2) (used.erase (segKeyOf s eo)) := by
          simp [kvProcess, hfe]
        rw [hstep] at herr ⊢
        cases i with
        | zero =>
          simp only [List.getD_cons_zero, opKeyAt, hfe] at hseg
          cases eo with
          | none => simp at hseg
          | some e2 =>
            obtain ⟨p, m, q⟩ := e2
            by_cases hm : m = ""
            · simp [hm] at hseg
            · simp only [ne_eq, hm, not_false_eq_true, if_true,
                Option.some.injEq] at hseg
              have hkey : segKeyOf s (some (p, m, q)) = k := by
                simp [segKeyOf, hm, hseg]
              rw [hkey]
              intro hmem
              have hin := (kvProcess_used_sublist ops (s2 :: rest2)
                (used.erase k)).subset hmem
              exact (hnd.mem_erase_iff.mp hin).1 rfl
        | succ j =>
          have hj : j + 1 < (s2 :: rest2).length := by
            simpa using Nat.lt_of_succ_lt_succ hi
          have hseg2 : opKeyAt ops ((s2 :: rest2).getD j "") = some k := by
            simpa using hseg
          exact ih (used.erase (segKeyOf s eo)) j k (hnd.erase _) hj hseg2 herr

/-- Key suggestions are drawn from the remaining available keys. -/
theorem keySuggest_text_mem (used : List String) (doc : Doc) (c : Compl)
    (hc : c ∈ keySuggest used doc) : c.text ∈ used := by
  unfold keySuggest wordCompleterRun at hc
  obtain ⟨c2, hc2, rfl⟩ := List.mem_map.mp hc
  obtain ⟨w, hw, rfl⟩ := List.mem_map.mp hc2
  exact (List.mem_filter.mp hw).1

/-- C3 — a key of the configured key set that appears paired with one of
the operators in a non-last comma-separated segment of the context word
never appears among the key suggestions (the `fg:ansiblue`-styled
completions) produced for the last segment. -/
theorem c3_kv_no_repeat (kv : KeyValueCompleter) (ctx : CompletionContext)
    (k : String) (i : Nat)
    (hnd : kv.key_names.Nodup)
    (_hk : k ∈ kv.key_names)
    (hi : i + 1 < (pySplitComma ctx.word).length)
    (hseg : opKeyAt kv.operators ((pySplitComma ctx.word).getD i "")
      = some k) :
    blueAvoids k (kv.get_completions ctx).1 := by
  intro c hc hstyle
  simp only [KeyValueCompleter.get_completions] at hc
  have hblue : ("" : String) ≠ "fg:ansiblue" := by decide
  cases herr : (kvProcess kv.operators (pySplitComma ctx.word)
      kv.key_names).err with
  | some e =>
    rw [herr] at hc
    simp only [List.mem_append] at hc
    rcases hc with hpre | hys
    · by_cases hkn : kv.key_names = []
      · simp [hkn] at hpre
        rw [hpre] at hstyle
        exact absurd hstyle hblue
      · simp [hkn] at hpre
    · have := kvProcess_ys_style kv.operators (pySplitComma ctx.word)
        kv.key_names c hys
      rw [this] at hstyle
      exact absurd hstyle hblue
  | none =>
    rw [herr] at hc
    simp only [List.append_assoc, List.mem_append] at hc
    rcases hc with hpre | hys | hsugg
    · by_cases hkn : kv.key_names = []
      · simp [hkn] at hpre
        rw [hpre] at hstyle
        exact absurd hstyle hblue
      · simp [hkn] at hpre
    · have := kvProcess_ys_style kv.operators (pySplitComma ctx.word)
        kv.key_names c hys
      rw [this] at hstyle
      exact absurd hstyle hblue
    · by_cases hprov : (kvProcess kv.operators (pySplitComma ctx.word)
          kv.key_names).provide
      · rw [if_pos hprov] at hsugg
        have hmem := keySuggest_text_mem _ ctx.document c hsugg
        have hnot := kvProcess_key_consumed kv.operators
          (pySplitComma ctx.word) kv.key_names i k hnd hi hseg herr
        intro hck
        rw [hck] at hmem
        exact hnot hmem
      · rw [if_neg hprov] at hsugg
        simp at hsugg

/-- C3 witness: keys `[job, instance]`, operators `[=, =~, !=, !~]`,
word `job=prometheus,`: `job` is consumed by the first segment and the
suggestions for the trailing empty segment avoid it. -/
theorem c3_kv_no_repeat_witness :
    (["job", "instance"] : List String).Nodup
      ∧ opKeyAt ["=", "=~", "!=", "!~"]
          ((pySplitComma "job=prometheus,").getD 0 "") = some "job"
      ∧ blueAvoids "job"
          (KeyValueCompleter.get_completions
            ⟨["job", "instance"], ["=", "=~", "!=", "!~"]⟩
            ⟨⟨"", 0⟩, pos1Desc, "job=prometheus,"⟩).1 :=
  ⟨by decide, by decide,
    c3_kv_no_repeat ⟨["job", "instance"], ["=", "=~", "!=", "!~"]⟩
      ⟨⟨"", 0⟩, pos1Desc, "job=prometheus,"⟩ "job" 0
      (by decide) (by decide) (by decide) (by decide)⟩

/-- A non-empty operator list without the empty string always produces a
three-part `expression`. -/
theorem findExpr_ok (s : String) :
    ∀ (ops : List String), ops ≠ [] → "" ∉ ops →
      ∃ p m q, findExpr s ops = .ok (some (p, m, q)) := by
  intro ops
  induction ops with
  | nil => intro h; exact absurd rfl h
  | cons op rest ih =>
    intro _ hnin
    have hop : op ≠ "" := by
      intro h
      exact hnin (by rw [h]; exact List.mem_cons_self _ _)
    obtain ⟨p, m, q, hpmq⟩ :
        ∃ p m q, pyPartition s op = .ok (p, m, q) := by
      unfold pyPartition
      rw [if_neg hop]
      cases splitFirst op.toList s.toList with
      | none => exact ⟨s, "", "", rfl⟩
      | some pr =>
        obtain ⟨a, b⟩ := pr
        exact ⟨a.asString, op, b.asString, rfl⟩
    unfold findExpr
    rw [hpmq]
    dsimp only
    by_cases hm : m ≠ ""
    · rw [if_pos hm]
      exact ⟨p, m, q, rfl⟩
    · rw [if_neg hm]
      cases rest with
      | nil => exact ⟨p, m, q, rfl⟩
      | cons op2 rest2 =>
        exact ih (by simp) (fun h => hnin (List.mem_cons_of_mem _ h))

/-- With a non-empty operator list containing no empty string, the segment
loop never raises. -/
theorem kvProcess_err_none (ops : List String) (hne : ops ≠ [])
    (hnin : "" ∉ ops) :
    ∀ (segs used : List String), (kvProcess ops segs used).err = none := by
  intro segs
  induction segs with
  | nil => intro used; rfl
  | cons s rest ih =>
    intro used
    obtain ⟨p, m, q, hfe⟩ := findExpr_ok s ops hne hnin
    cases rest with
    | nil =>
      simp only [kvProcess, hfe]
      split_ifs <;> rfl
    | cons s2 rest2 =>
      simp only [kvProcess, hfe]
      exact ih _

/-- With an empty operator list the final segment's shape analysis indexes
the never-assigned empty `expression`, raising `IndexError` — whatever the
word. -/
theorem kvProcess_err_empty_ops :
    ∀ (segs used : List String), segs ≠ [] →
      (kvProcess ([] : List String) segs used).err
        = some PyErr.indexError := by
  intro segs
  induction segs with
  | nil => intro used h; exact absurd rfl h
  | cons s rest ih =>
    intro used _
    cases rest with
    | nil => rfl
    | cons s2 rest2 =>
      show (kvProcess [] (s2 :: rest2) _).err = _
      exact ih _ (by simp)

/-- `str.split(',')` always yields at least one segment. -/
theorem pySplitComma_ne_nil (s : String) : pySplitComma s ≠ [] := by
  unfold pySplitComma
  have : ∀ l : List Char, splitCommaL l ≠ [] := by
    intro l
    induction l with
    | nil => simp [splitCommaL]
    | cons c rest ih =>
      by_cases hc : c = ','
      · simp [splitCommaL, hc]
      · simp only [splitCommaL, hc, if_neg, ne_eq]
        cases h : splitCommaL rest with
        | nil => simp
        | cons w ws => simp
  intro h
  exact this s.toList (by simpa using h)

/-- C10 (counterexample) — a non-empty operator list does not guarantee
totality: with operators `['']` every completion attempt raises
`ValueError` (`str.partition` rejects an empty separator). -/
theorem c10_counterexample :
    (⟨["job"], [""]⟩ : KeyValueCompleter).operators ≠ []
      ∧ (KeyValueCompleter.get_completions ⟨["job"], [""]⟩
          ⟨⟨"", 0⟩, pos1Desc, "a"⟩).2 = some PyErr.valueError := by
  exact ⟨by decide, rfl⟩

/-- C10 (amended) — `KeyValueCompleter.get_completions` raises no
exception for any context word whenever the operator list is non-empty
and contains no empty-string operator; with an empty operator list every
word (including the empty one) fails with `IndexError` from reading
element 0 of the never-assigned empty partition result. -/
theorem c10_amended (kv : KeyValueCompleter) (ctx : CompletionContext) :
    (kv.operators ≠ [] → "" ∉ kv.operators →
        (kv.get_completions ctx).2 = none)
      ∧ (kv.operators = [] →
          (kv.get_completions ctx).2 = some PyErr.indexError) := by
  constructor
  · intro hne hnin
    simp only [KeyValueCompleter.get_completions]
    rw [kvProcess_err_none kv.operators hne hnin (pySplitComma ctx.word)
      kv.key_names]
  · intro hops
    simp only [KeyValueCompleter.get_completions]
    rw [hops, kvProcess_err_empty_ops (pySplitComma ctx.word) kv.key_names
      (pySplitComma_ne_nil ctx.word)]

/-- C10 (amended) witness: operators `['=']` never raise; an empty
operator list raises `IndexError` even on the empty word. -/
theorem c10_amended_witness :
    (KeyValueCompleter.get_completions ⟨["job"], ["="]⟩
        ⟨⟨"", 0⟩, pos1Desc, "x=1,y"⟩).2 = none
      ∧ (KeyValueCompleter.get_completions ⟨["job"], []⟩
          ⟨⟨"", 0⟩, pos1Desc, ""⟩).2 = some PyErr.indexError :=
  ⟨(c10_amended ⟨["job"], ["="]⟩ ⟨⟨"", 0⟩, pos1Desc, "x=1,y"⟩).1
      (by decide) (by decide),
    (c10_amended ⟨["job"], []⟩ ⟨⟨"", 0⟩, pos1Desc, ""⟩).2 rfl⟩

/-! ### C6: single-occurrence exhaustion for non-final flag words -/

/-- `WordCompleter` output texts come from its word list. -/
theorem wordCompleterRun_text_mem (ws : List String) (doc : Doc) (c : Compl)
    (hc : c ∈ wordCompleterRun ws doc) : c.text ∈ ws := by
  unfold wordCompleterRun at hc
  obtain ⟨w, hw, rfl⟩ := List.mem_map.mp hc
  exact (List.mem_filter.mp hw).1

/-- A descriptor produced as the active descriptor of `consumeWord` was a
member of the incoming working copy. -/
theorem consumeWord_active_mem (st : ArgumentCompleter.State) (w : String)
    (d : ArgDescriptor) (h : (consumeWord st w).arg_descriptor = some d) :
    d ∈ st.arg_desc_list := by
  unfold consumeWord at h
  cases hfind : st.find_option_argument w with
  | some d0 =>
    rw [hfind] at h
    simp only [Option.some.injEq] at h
    rw [← h]
    exact List.mem_of_find?_eq_some hfind
  | none =>
    rw [hfind] at h
    by_cases hn : st.arg_descriptor.isNone <;> simp [hn] at h

/-- Texts and option flags collected by the descriptor loop avoid a token
`f` that occurs in no remaining descriptor's choices and in no remaining
non-positional descriptor's flags (no custom completer, `f` non-empty). -/
theorem argSetLoop_avoids (f : String) (hf : f ≠ "")
    (st : ArgumentCompleter.State) (hcmp : st.completer = none) :
    ∀ (l : List ArgDescriptor),
      (∀ d ∈ l, f ∉ d.choices ∧ (d.is_positional = false → f ∉ d.flags)) →
      (∀ c ∈ (argSetLoop st l).1, c.text ≠ f)
        ∧ (∀ x ∈ (argSetLoop st l).2.1, x ≠ f) := by
  intro l
  induction l with
  | nil =>
    intro _
    constructor <;> intro x hx <;> simp [argSetLoop] at hx
  | cons d rest ih =>
    intro hch
    obtain ⟨ih1, ih2⟩ := ih (fun d2 hd2 => hch d2 (List.mem_cons_of_mem d hd2))
    obtain ⟨hdch, hdfl⟩ := hch d (List.mem_cons_self d rest)
    by_cases hpos : d.is_positional = true
    · have hcp : st.completion_for_positional d ""
          = (wordCompleterRun d.choices st.document, none) := by
        unfold ArgumentCompleter.State.completion_for_positional
        rw [if_pos hpos, hcmp]
      constructor
      · intro c hc
        simp only [argSetLoop, hpos, if_true, hcp] at hc
        rcases List.mem_append.mp hc with hl | hr
        · have := wordCompleterRun_text_mem d.choices st.document c hl
          intro hcf
          rw [hcf] at this
          exact hdch this
        · exact ih1 c hr
      · intro x hx
        simp only [argSetLoop, hpos, if_true, hcp] at hx
        exact ih2 x hx
    · have hposf : d.is_positional = false := by
        simpa using hpos
      constructor
      · intro c hc
        simp only [argSetLoop, hposf, Bool.false_eq_true, if_false] at hc
        exact ih1 c hc
      · intro x hx
        simp only [argSetLoop, hposf, Bool.false_eq_true, if_false,
          List.mem_cons] at hx
        rcases hx with rfl | hx2
        · intro hxf
          cases hfl : d.flags with
          | nil =>
            rw [hfl] at hxf
            exact hf (by simpa using hxf.symm)
          | cons a as =>
            have hmemfl : d.flags.headD "" ∈ d.flags := by
              rw [hfl]
              simp
            rw [hxf] at hmemfl
            exact (hdfl hposf) hmemfl
        · exact ih2 x hx2

/-- Full-argument-set completion avoids such a token. -/
theorem argumentSet_avoids (f : String) (hf : f ≠ "")
    (st : ArgumentCompleter.State) (hcmp : st.completer = none)
    (hch : ∀ d ∈ st.arg_desc_list,
      f ∉ d.choices ∧ (d.is_positional = false → f ∉ d.flags)) :
    ∀ c ∈ st.completion_for_argument_set.1, c.text ≠ f := by
  intro c hc
  obtain ⟨h1, h2⟩ := argSetLoop_avoids f hf st hcmp st.arg_desc_list hch
  unfold ArgumentCompleter.State.completion_for_argument_set at hc
  cases hrec : argSetLoop st st.arg_desc_list with
  | mk ys rest2 =>
    obtain ⟨fl, e⟩ := rest2
    rw [hrec] at hc h1 h2
    cases e with
    | some e2 =>
      simp only at hc
      exact h1 c hc
    | none =>
      simp only at hc h1 h2
      rcases List.mem_append.mp hc with hl | hr
      · exact h1 c hl
      · have := wordCompleterRun_text_mem fl st.document c hr
        intro hcf
        rw [hcf] at this
        exact h2 f this rfl

/-- Value completion for the active descriptor avoids such a token when it
is also absent from the active descriptor's choices. -/
theorem completionForArgument_avoids (f : String) (hf : f ≠ "")
    (st : ArgumentCompleter.State) (hcmp : st.completer = none)
    (hch : ∀ d ∈ st.arg_desc_list,
      f ∉ d.choices ∧ (d.is_positional = false → f ∉ d.flags))
    (hact : ∀ d, st.arg_descriptor = some d → f ∉ d.choices) :
    ∀ c ∈ st.completion_for_argument.1, c.text ≠ f := by
  intro c hc
  unfold ArgumentCompleter.State.completion_for_argument at hc
  cases had : st.arg_descriptor with
  | none =>
    rw [had] at hc
    simp at hc
  | some d =>
    rw [had] at hc
    dsimp only at hc
    by_cases hfl : d.is_flag = true
    · rw [if_pos hfl] at hc
      exact argumentSet_avoids f hf st hcmp hch c hc
    · rw [if_neg hfl] at hc
      unfold ArgumentCompleter.State.completion_for_positional at hc
      by_cases hpos : d.is_positional = true
      · rw [if_pos hpos, hcmp] at hc
        simp only at hc
        have := wordCompleterRun_text_mem d.choices st.document c hc
        intro hcf
        rw [hcf] at this
        exact hact d had this
      · rw [if_neg hpos] at hc
        simp at hc

/-- The last-word base case avoids such a token. -/
theorem lastWord_avoids (f : String) (hf : f ≠ "")
    (st : ArgumentCompleter.State) (w : String)
    (hcmp : st.completer = none)
    (hch : ∀ d ∈ st.arg_desc_list,
      f ∉ d.choices ∧ (d.is_positional = false → f ∉ d.flags))
    (hact : ∀ d, st.arg_descriptor = some d → f ∉ d.choices) :
    ∀ c ∈ (lastWordCompletion st w).1, c.text ≠ f := by
  intro c hc
  unfold lastWordCompletion at hc
  by_cases htr : st.trailing_space = true
  · rw [if_pos htr] at hc
    cases hfind : st.find_option_argument w with
    | some d =>
      rw [hfind] at hc
      have hdmem : d ∈ st.arg_desc_list := List.mem_of_find?_eq_some hfind
      exact completionForArgument_avoids f hf
        { st with arg_descriptor := some d } hcmp hch
        (fun d2 hd2 => by
          simp only [Option.some.injEq] at hd2
          rw [← hd2]
          exact (hch d hdmem).1) c hc
    | none =>
      rw [hfind] at hc
      by_cases hn : st.arg_descriptor.isNone = true
      · rw [if_pos hn] at hc
        refine argumentSet_avoids f hf st.remove_positional hcmp
          (fun d2 hd2 => hch d2 ?_) c hc
        exact (removeFirstPositional_sublist st.arg_desc_list).subset hd2
      · rw [if_neg hn] at hc
        exact argumentSet_avoids f hf st hcmp hch c hc
  · rw [if_neg htr] at hc
    cases had : st.arg_descriptor with
    | some d =>
      rw [had] at hc
      exact completionForArgument_avoids f hf st hcmp hch hact c hc
    | none =>
      rw [had] at hc
      exact argumentSet_avoids f hf st hcmp hch c hc

/-- The whole recursion avoids such a token when the invariant holds at
its entry state. -/
theorem resolve_avoids (f : String) (hf : f ≠ "") :
    ∀ (ws : List String) (st : ArgumentCompleter.State),
      st.completer = none →
      (∀ d ∈ st.arg_desc_list,
        f ∉ d.choices ∧ (d.is_positional = false → f ∉ d.flags)) →
      (∀ d, st.arg_descriptor = some d → f ∉ d.choices) →
      ∀ c ∈ (ArgumentCompleter.resolve_completion st ws).1, c.text ≠ f := by
  intro ws
  induction ws with
  | nil =>
    intro st hcmp hch _ c hc
    exact argumentSet_avoids f hf st hcmp hch c hc
  | cons w rest ih =>
    cases rest with
    | nil =>
      intro st hcmp hch hact c hc
      exact lastWord_avoids f hf st w hcmp hch hact c hc
    | cons w2 rest2 =>
      intro st hcmp hch hact c hc
      have hstep : ArgumentCompleter.resolve_completion st (w :: w2 :: rest2)
          = ArgumentCompleter.resolve_completion (consumeWord st w)
              (w2 :: rest2) := rfl
      rw [hstep] at hc
      exact ih (consumeWord st w)
        (by rw [(consumeWord_frame st w).2.2]; exact hcmp)
        (fun d hd => hch d ((consumeWord_descs_sublist st w).subset hd))
        (fun d hd => (hch d (consumeWord_active_mem st w d hd)).1)
        c hc

/-- Consuming the words before the last one is a left fold of
`consumeWord`. -/
theorem resolve_append (rest : List String) (hrest : rest ≠ []) :
    ∀ (ws1 : List String) (st : ArgumentCompleter.State),
      ArgumentCompleter.resolve_completion st (ws1 ++ rest)
        = ArgumentCompleter.resolve_completion
            (List.foldl consumeWord st ws1) rest := by
  intro ws1
  induction ws1 with
  | nil => intro st; rfl
  | cons w ws1t ih =>
    intro st
    have hne2 : ws1t ++ rest ≠ [] := by
      intro h
      exact hrest (List.append_eq_nil.mp h).2
    obtain ⟨y, ys, hys⟩ := List.exists_cons_of_ne_nil hne2
    have hstep : ArgumentCompleter.resolve_completion st
          ((w :: ws1t) ++ rest)
        = ArgumentCompleter.resolve_completion (consumeWord st w)
            (ws1t ++ rest) := by
      show ArgumentCompleter.resolve_completion st (w :: (ws1t ++ rest)) = _
      rw [hys]
      rfl
    rw [hstep, ih (consumeWord st w)]
    rfl

/-- The working copy after any sequence of consumed words is a sublist of
the starting copy. -/
theorem foldl_consume_sublist (ws : List String) :
    ∀ st : ArgumentCompleter.State,
      (List.foldl consumeWord st ws).arg_desc_list.Sublist
        st.arg_desc_list := by
  induction ws with
  | nil => intro st; exact List.Sublist.refl _
  | cons w rest ih =>
    intro st
    exact (ih (consumeWord st w)).trans (consumeWord_descs_sublist st w)

/-- The completer reference is never touched while consuming words. -/
theorem foldl_consume_completer (ws : List String) :
    ∀ st : ArgumentCompleter.State,
      (List.foldl consumeWord st ws).completer = st.completer := by
  induction ws with
  | nil => intro st; rfl
  | cons w rest ih =>
    intro st
    rw [List.foldl_cons, ih (consumeWord st w), (consumeWord_frame st w).2.2]

/-- A flag token present in no remaining descriptor survives
`list.remove` only through a dict-content collision; with distinct dict
contents the uniquely-flagged descriptor is really gone. -/
theorem not_mem_pyRemoveDesc_self (l : List ArgDescriptor)
    (x : ArgDescriptor) (hx : x ∈ l)
    (hnd : (l.map (fun d => d.attrs)).Nodup) : x ∉ pyRemoveDesc l x := by
  induction l with
  | nil => simp at hx
  | cons y rest ih =>
    by_cases h : y.attrs = x.attrs
    · simp only [pyRemoveDesc, h, if_pos]
      intro hmem
      have : x.attrs ∈ rest.map (fun d => d.attrs) :=
        List.mem_map.mpr ⟨x, hmem, rfl⟩
      rw [← h] at this
      exact (List.nodup_cons.mp (by simpa using hnd)).1 this
    · simp only [pyRemoveDesc, h, if_neg]
      intro hmem2
      cases List.mem_cons.mp hmem2 with
      | inl heq => exact h (by rw [heq])
      | inr hmem3 =>
        cases List.mem_cons.mp hx with
        | inl heq2 => exact h (by rw [heq2])
        | inr hx2 =>
          exact ih hx2 (List.nodup_cons.mp (by simpa using hnd)).2 hmem3

/-- Consuming the (non-final) flag word `f` establishes the avoided-token
invariant: afterwards no remaining descriptor carries `f` among flags or
choices, and the active descriptor's choices avoid `f`. -/
theorem consume_flag_establishes (L : List ArgDescriptor) (f : String)
    (dstar : ArgDescriptor) (hmem : dstar ∈ L)
    (huniq : ∀ d ∈ L, f ∈ d.flags → d = dstar)
    (hch : ∀ d ∈ L, f ∉ d.choices)
    (hnd : (L.map (fun d => d.attrs)).Nodup)
    (st : ArgumentCompleter.State)
    (hsub : st.arg_desc_list.Sublist L) :
    (∀ d ∈ (consumeWord st f).arg_desc_list,
        f ∉ d.choices ∧ (d.is_positional = false → f ∉ d.flags))
      ∧ (∀ d, (consumeWord st f).arg_descriptor = some d →
          f ∉ d.choices) := by
  have hndst : (st.arg_desc_list.map (fun d => d.attrs)).Nodup :=
    (hsub.map (fun d => d.attrs)).nodup hnd
  constructor
  · intro d hd
    have hdsub : d ∈ st.arg_desc_list :=
      (consumeWord_descs_sublist st f).subset hd
    have hdL : d ∈ L := hsub.subset hdsub
    refine ⟨hch d hdL, fun _ hdf => ?_⟩
    have hdstar : d = dstar := huniq d hdL hdf
    unfold consumeWord at hd
    cases hfind : st.find_option_argument f with
    | some d0 =>
      rw [hfind] at hd
      simp only at hd
      have hd0mem : d0 ∈ st.arg_desc_list := List.mem_of_find?_eq_some hfind
      have hd0pred := List.find?_some hfind
      have hd0f : f ∈ d0.flags := by
        simp only [Bool.and_eq_true] at hd0pred
        have := hd0pred.2
        simpa [List.contains] using this
      have hd0star : d0 = dstar := huniq d0 (hsub.subset hd0mem) hd0f
      rw [hd0star] at hd
      rw [hdstar] at hd
      exact not_mem_pyRemoveDesc_self st.arg_desc_list dstar
        (hd0star ▸ hd0mem) hndst hd
    | none =>
      have hnotfound := List.find?_eq_none.mp hfind d hdsub
      simp only [Bool.and_eq_true, Bool.not_eq_true', not_and] at hnotfound
      by_cases hpos : d.is_positional = true
      · rw [hdstar] at hpos
        have : dstar.is_positional = false := by
          have hfl : f ∈ dstar.flags := by
            rw [← hdstar]; exact hdf
          by_contra hcon
          exact absurd hpos (by simp_all)
        simp_all
      · have := hnotfound (by simpa using hpos)
        rw [Bool.not_eq_true] at this
        have hnc : f ∉ d.flags := by
          intro hin
          have : d.flags.contains f = true := by
            simpa [List.contains] using hin
          simp_all
        exact hnc hdf
  · intro d hd
    exact hch d (hsub.subset (consumeWord_active_mem st f d hd))

/-- C6 (amended) — once a descriptor's flag token has been typed as a
fully-terminated non-final word of the line (at least one word follows
it), the token never appears in the candidate sequence produced for that
line, provided the token is non-empty and unique to that descriptor, no
descriptor's candidate values contain it, the descriptors' dict contents
are pairwise distinct, and no custom value completer is configured.  (When
the flag is instead the LAST word followed by the trailing space, a
Switch's flag is re-offered immediately — see the counterexample — and a
SingleValue's value completion raises.) -/
theorem c6_amended (L : List ArgDescriptor) (doc : Doc) (f : String)
    (dstar : ArgDescriptor) (ws1 ws2 : List String)
    (hw : pyWords doc.text = ws1 ++ f :: ws2)
    (hne : ws2 ≠ [])
    (hmem : dstar ∈ L)
    (huniq : ∀ d ∈ L, f ∈ d.flags → d = dstar)
    (hch : ∀ d ∈ L, f ∉ d.choices)
    (hnd : (L.map (fun d => d.attrs)).Nodup)
    (hf : f ≠ "") :
    avoidsToken f
      (ArgumentCompleter.get_completions ⟨L, none⟩ doc).1 := by
  unfold avoidsToken
  intro c hc
  simp only [ArgumentCompleter.get_completions] at hc
  rw [hw] at hc
  set st0 := initState ⟨L, none⟩ doc with hst0
  obtain ⟨y, ys, hys⟩ := List.exists_cons_of_ne_nil hne
  have hres : ArgumentCompleter.resolve_completion st0 (ws1 ++ f :: ws2)
      = ArgumentCompleter.resolve_completion
          (consumeWord (List.foldl consumeWord st0 ws1) f) ws2 := by
    rw [resolve_append (f :: ws2) (by simp) ws1 st0]
    rw [hys]
    rfl
  rw [hres] at hc
  have hsub1 : (List.foldl consumeWord st0 ws1).arg_desc_list.Sublist L :=
    foldl_consume_sublist ws1 st0
  have hinv := consume_flag_establishes L f dstar hmem huniq hch hnd
    (List.foldl consumeWord st0 ws1) hsub1
  have hcmp2 :
      (consumeWord (List.foldl consumeWord st0 ws1) f).completer = none := by
    rw [(consumeWord_frame _ f).2.2, foldl_consume_completer ws1 st0]
    rfl
  have havoid := resolve_avoids f hf ws2
    (consumeWord (List.foldl consumeWord st0 ws1) f) hcmp2 hinv.1 hinv.2
  cases hres2 : ArgumentCompleter.resolve_completion
      (consumeWord (List.foldl consumeWord st0 ws1) f) ws2 with
  | mk items e =>
    rw [hres2] at hc havoid
    cases e with
    | none =>
      dsimp only at hc havoid
      rcases List.mem_append.mp hc with hl | hr
      · exact havoid c hl
      · have hce : c = { text := "", start := 0, style := "" } := by
          simpa using hr
        rw [hce]
        intro hcf
        exact hf hcf.symm
    | some e2 =>
      dsimp only at hc havoid
      exact havoid c hc

/-- C6 (amended) witness: for the scenario descriptor set and the line
`"-o1 v w"`, the flag `-o1` (a non-final word) appears in no candidate. -/
theorem c6_amended_witness :
    pyWords "-o1 v w" = [] ++ "-o1" :: ["v", "w"]
      ∧ avoidsToken "-o1"
          (ArgumentCompleter.get_completions
            ⟨[pos1Desc, o1Desc, o2Desc], none⟩ ⟨"-o1 v w", 0⟩).1 :=
  ⟨by decide,
    c6_amended [pos1Desc, o1Desc, o2Desc] ⟨"-o1 v w", 0⟩ "-o1" o1Desc
      [] ["v", "w"] (by decide) (by decide) (by decide) (by decide)
      (by decide) (by decide) (by decide)⟩

/-- C2 (amended) witness: the unmatched non-final word `"xyz"` at the
scenario start state shrinks the working copy to a sublist and leaves no
active descriptor. -/
theorem c2_amended_witness :
    (initState scenCompleter ⟨"xyz abc", 0⟩).find_option_argument "xyz"
        = none
      ∧ (consumeWord (initState scenCompleter ⟨"xyz abc", 0⟩)
          "xyz").arg_desc_list.Sublist
            (initState scenCompleter ⟨"xyz abc", 0⟩).arg_desc_list
      ∧ (consumeWord (initState scenCompleter ⟨"xyz abc", 0⟩)
          "xyz").arg_descriptor = none :=
  ⟨by decide,
    (c2_amended (initState scenCompleter ⟨"xyz abc", 0⟩) "xyz"
      (by decide) rfl).1,
    (c2_amended (initState scenCompleter ⟨"xyz abc", 0⟩) "xyz"
      (by decide) rfl).2.1⟩
